import Mathlib

set_option linter.unusedVariables false

/-! Shallow embedding of the ooosplits speedrun core (src/speedrun/data.go and
src/speedrun/import.go).  Durations and time instants are modelled as integer
nanoseconds (`Int`), matching Go's `time.Duration` and `time.Time` precision.
The SQLite store is modelled as in-memory lists of rows; SQL statements become
pure list transformations.  Failures of individual statements inside the save
transaction are injected through an explicit `failAt` oracle; a Go runtime
panic (index out of range) is modelled as `none`. -/

namespace Speedrun

/-- Base-ten power, written out structurally so the kernel evaluates it. -/
def pow10 : Nat → Nat
  | 0 => 1
  | n + 1 => 10 * pow10 n

/-- Truncation-toward-zero division of an integer by a natural number,
matching Go's conversion `time.Duration(f)` of a nonnegative or negative
real quantity to integer nanoseconds. -/
def truncDiv (a : Int) (b : Nat) : Int :=
  Int.sign a * ((a.natAbs / b : Nat) : Int)

/-- Decimal digit test on a character, as a byte-range check. -/
def isDigitChar (c : Char) : Bool := 48 ≤ c.toNat && c.toNat ≤ 57

/-- Longest digit prefix of a character list, together with the rest. -/
def takeDigits : List Char → List Char × List Char
  | [] => ([], [])
  | c :: cs =>
    if isDigitChar c then
      let (d, r) := takeDigits cs
      (c :: d, r)
    else ([], c :: cs)

/-- Value of a digit string, most significant first. -/
def natOfDigits (ds : List Char) : Nat :=
  ds.foldl (fun a c => 10 * a + (c.toNat - 48)) 0

/-- Exact decimal number: the value `num / 10 ^ exp`. -/
structure Dec where
  num : Int
  exp : Nat
deriving Repr, DecidableEq

/-- Model of `fmt.Sscanf(s, "%f", &x)`: an optional sign, then decimal digits
with an optional fractional part; `none` when no number can be scanned (the
Go call then reports an error and leaves the target variable at zero).
Trailing characters after the scanned number are ignored, as Sscanf does with
a single directive.  The value is kept as an exact decimal; the float64
arithmetic of the source is exact on every input considered in the claims. -/
def scanF (s : List Char) : Option Dec :=
  let (sg, cs) :=
    match s with
    | '-' :: r => ((-1 : Int), r)
    | '+' :: r => ((1 : Int), r)
    | cs => ((1 : Int), cs)
  let (ip, r1) := takeDigits cs
  let (fp, _) :=
    match r1 with
    | '.' :: r => takeDigits r
    | r => ([], r)
  if ip.isEmpty && fp.isEmpty then none
  else some ⟨sg * ((natOfDigits ip * pow10 fp.length + natOfDigits fp : Nat) : Int), fp.length⟩

/-- Split a character list on the colon character, as Go's
`strings.Split(s, ":")`: the result is never empty. -/
def splitOnColon : List Char → List (List Char)
  | [] => [[]]
  | c :: rest =>
    let r := splitOnColon rest
    if c = ':' then [] :: r
    else
      match r with
      | h :: t => (c :: h) :: t
      | [] => [[c]]

/-- Nanosecond value of `minutes*60*time.Second + seconds*time.Second`
computed exactly and truncated toward zero once, as the single
`time.Duration(...)` conversion in `ImportFromJSON` does. -/
def Dec.toNs (m s : Dec) : Int :=
  truncDiv (m.num * 60 * 1000000000 * (pow10 s.exp : Int) +
            s.num * 1000000000 * (pow10 m.exp : Int))
           (pow10 (m.exp + s.exp))

/-- Parse one split-time string of `ImportFromJSON`: split on the colon, scan
minutes and seconds with `%f` (a failed scan leaves the zero value, since the
source discards Sscanf's error), then convert to nanoseconds.  With exactly
two parts the first is minutes and the second seconds; otherwise the first
part alone is scanned as seconds. -/
def parseClockNs (s : String) : Int :=
  match splitOnColon s.toList with
  | [mStr, sStr] => Dec.toNs ((scanF mStr).getD ⟨0, 0⟩) ((scanF sStr).getD ⟨0, 0⟩)
  | parts => Dec.toNs ⟨0, 0⟩ ((scanF (parts.headD [])).getD ⟨0, 0⟩)

/-- Loop body of the cumulative-to-segment conversion in `ImportFromJSON`:
`i` is the loop index and `total` the running total of computed segment
durations; the segment at index 0 is the parsed value itself, later segments
are the parsed cumulative value minus the running total. -/
def importSegAux (i : Nat) (total : Int) : List String → List Int
  | [] => []
  | t :: rest =>
    let c := parseClockNs t
    let d := if i = 0 then c else c - total
    d :: importSegAux (i + 1) (total + d) rest

/-- Per-segment durations computed by `ImportFromJSON` from the list of
personal-best split-time strings. -/
def importSegments (ts : List String) : List Int :=
  importSegAux 0 0 ts

/-- Modelled from the spec: "first segment = its own cumulative value; each
subsequent segment = its cumulative value minus the previous cumulative
value".  `prev` is the previous cumulative value, zero initially. -/
def specSegAux (prev : Int) : List Int → List Int
  | [] => []
  | c :: cs => (c - prev) :: specSegAux c cs

/-- Modelled from the spec: differencing of consecutive cumulative values. -/
def specSegmentsOfCumulative (cs : List Int) : List Int :=
  specSegAux 0 cs

/-! ## Data model -/

/-- In-memory split of a run (`speedrun.Split`): name, segment duration, and
the best (gold) segment across all completed runs, filled in by
`ComputeBestSegments` and zero-valued when loaded. -/
structure Split where
  name : String
  duration : Int
  bestSegment : Int
deriving Repr, DecidableEq, Inhabited

/-- In-memory run (`speedrun.Run`). -/
structure Run where
  id : Nat
  title : String
  category : String
  startTime : Int
  endTime : Int
  completed : Bool
  isPB : Bool
  attemptNum : Int
  splits : List Split
deriving Repr, DecidableEq

/-- Row of the `config` table (single row with id 1). -/
structure ConfigRow where
  title : String
  category : String
  attempts : Int
  completed : Int
deriving Repr, DecidableEq

/-- Row of the `runs` table. -/
structure RunRow where
  id : Nat
  title : String
  category : String
  startTime : Int
  endTime : Int
  completed : Bool
  isPB : Bool
  attemptNum : Int
deriving Repr, DecidableEq

/-- Row of the `splits` table. -/
structure SplitRow where
  runId : Nat
  splitIndex : Int
  splitName : String
  durationNs : Int
deriving Repr, DecidableEq

/-- The SQLite database: config row, ordered split names, run rows and split
rows in insertion (rowid) order, and the next AUTOINCREMENT run id. -/
structure DB where
  config : ConfigRow
  splitNames : List String
  runs : List RunRow
  splits : List SplitRow
  nextRunId : Nat
deriving Repr, DecidableEq

/-- The in-memory `speedrun.RunManager` state. -/
structure RunManager where
  title : String
  category : String
  attempts : Int
  completedRuns : Int
  splitNames : List String
  splits : List Int
  pb : Option Run
  startTime : Int
  splitStartTime : Int
  isRunning : Bool
  currentSplit : Int
  isCompleted : Bool
deriving Repr, DecidableEq

/-- Lifecycle mode of the manager, derived from the two booleans exactly as
the spec's `Idle`, `Running`, `Completed` modes are derived from the source's
`isRunning` and `isCompleted` fields. -/
inductive Mode where
  | idle
  | running
  | completed
deriving Repr, DecidableEq

/-- Derived mode of a manager state. -/
def RunManager.mode (rm : RunManager) : Mode :=
  if rm.isRunning then Mode.running
  else if rm.isCompleted then Mode.completed
  else Mode.idle

/-- Sum of a list of durations, as the Go accumulation loops compute it. -/
def sumD (l : List Int) : Int := l.foldl (· + ·) 0

/-- Total duration of the stored personal best (sum of its split durations). -/
def pbSum (pb : Run) : Int := pb.splits.foldl (fun a s => a + s.duration) 0

/-- Number of run rows carrying the `is_pb` flag. -/
def countPB (db : DB) : Nat := (db.runs.map fun r => r.isPB).count true

/-- Insertion of one split row into a run-ordered list, keyed on split index
(helper of the `ORDER BY split_index` model). -/
def insSorted (s : SplitRow) : List SplitRow → List SplitRow
  | [] => [s]
  | t :: ts =>
    if s.splitIndex ≤ t.splitIndex then s :: t :: ts
    else t :: insSorted s ts

/-- Stable sort of split rows by split index, modelling `ORDER BY split_index`. -/
def sortByIndex : List SplitRow → List SplitRow
  | [] => []
  | s :: ts => insSorted s (sortByIndex ts)

/-- Model of `loadPersonalBest`: the first run row with `is_pb = 1` and
`completed = 1` (the SQL `LIMIT 1` in insertion order), with its split rows
ordered by index; `none` when no PB exists.  The loaded splits carry a
zero-valued best segment, as the Go zero value does. -/
def loadPersonalBest (db : DB) : Option Run :=
  match db.runs.find? (fun r => r.isPB && r.completed) with
  | none => none
  | some r =>
    some ⟨r.id, r.title, r.category, r.startTime, r.endTime, r.completed, r.isPB,
          r.attemptNum,
          (sortByIndex (db.splits.filter fun s => s.runId = r.id)).map
            fun s => ⟨s.splitName, s.durationNs, 0⟩⟩

/-- The sentinel `time.Duration(1<<63 - 1)` used by `ComputeBestSegments` as
the initial "no data" value of each slot. -/
def bigDur : Int := 9223372036854775807

/-- One scanned row of the best-segment query: update slot `splitIndex` when
the index is in range and the duration is strictly smaller than the slot. -/
def bestStep (n : Nat) (acc : List Int) (s : SplitRow) : List Int :=
  if 0 ≤ s.splitIndex ∧ s.splitIndex < (n : Int) ∧
     s.durationNs < acc.getD s.splitIndex.toNat 0
  then acc.set s.splitIndex.toNat s.durationNs
  else acc

/-- Rows returned by the query joining `splits` with completed `runs`. -/
def completedSplitRows (db : DB) : List SplitRow :=
  db.splits.filter fun s => db.runs.any fun r => r.id == s.runId && r.completed

/-- The best-segment slots after scanning every split row of a completed run. -/
def bestSegments (db : DB) (n : Nat) : List Int :=
  (completedSplitRows db).foldl (bestStep n) (List.replicate n bigDur)

/-- Write-back loop of `ComputeBestSegments`: assign slot `i` to PB split `i`.
The second pattern is unreachable under the length guard of the caller. -/
def setBest : List Split → List Int → List Split
  | [], _ => []
  | s :: ss, [] => s :: ss
  | s :: ss, b :: bs => { s with bestSegment := b } :: setBest ss bs

/-- Model of `ComputeBestSegments`: a no-op without a PB or with an empty PB
split list; otherwise scan all completed runs' splits (indices outside
`[0, numSplits)` skipped) and write each slot into the PB splits.  The Go
write-back loop indexes `bestSegments[i]` for every `i` below the PB split
count; when the PB has more splits than the current split-name list that
indexing panics, modelled as `none`. -/
def ComputeBestSegments (rm : RunManager) (db : DB) : Option RunManager :=
  match rm.pb with
  | none => some rm
  | some pb =>
    if pb.splits.length = 0 then some rm
    else
      let n := rm.splitNames.length
      let best := bestSegments db n
      if pb.splits.length ≤ n then
        some { rm with pb := some { pb with splits := setBest pb.splits best } }
      else none

/-! ## The save protocol -/

/-- Statements of the save transaction at which a persistence failure can be
injected.  `txBegin` is the `db.Begin()` call itself. -/
inductive SaveStep where
  | txBegin
  | updateConfig
  | insertRun
  | clearPB
  | setPB
  | insertSplit (i : Nat)
  | commit
deriving Repr, DecidableEq

/-- Result of `saveRun`: whether it returned without error, and the manager
and database after the call. -/
structure SaveOutcome where
  ok : Bool
  rm : RunManager
  db : DB
deriving Repr, DecidableEq

/-- The PB-promotion decision of `saveRun`: only a completed run promotes;
with no PB loaded it always promotes, otherwise only on a strictly smaller
total duration. -/
def promotes (completed : Bool) (rm : RunManager) : Bool :=
  completed &&
    match rm.pb with
    | none => true
    | some pb => decide (sumD rm.splits < pbSum pb)

/-- The split-insertion loop of `saveRun`: the Go statement arguments index
`rm.splitNames[i]`, so an out-of-range index panics (`none`) before the
statement could fail; an injected statement failure yields `(false, _)`. -/
def insertSplitRows (failAt : Option SaveStep) (runID : Nat) (names : List String) :
    List Int → Nat → Option (Bool × List SplitRow)
  | [], _ => some (true, [])
  | d :: ds, i =>
    match names.get? i with
    | none => none
    | some nm =>
      if failAt = some (SaveStep.insertSplit i) then some (false, [])
      else
        match insertSplitRows failAt runID names ds (i + 1) with
        | none => none
        | some (false, rows) => some (false, rows)
        | some (true, rows) => some (true, (⟨runID, (i : Int), nm, d⟩ : SplitRow) :: rows)

/-- The split rows `saveRun` inserts on a fully successful pass. -/
def mkRows (runID : Nat) (names : List String) : List Int → Nat → List SplitRow
  | [], _ => []
  | d :: ds, i => (⟨runID, (i : Int), names.getD i "", d⟩ : SplitRow) :: mkRows runID names ds (i + 1)

/-- The run row inserted by `saveRun` (with the attempts counter already
incremented, `is_pb` initialized false). -/
def newRunRow (now : Int) (completed : Bool) (rm : RunManager) (db : DB) : RunRow :=
  ⟨db.nextRunId, rm.title, rm.category, rm.startTime, now, completed, false, rm.attempts + 1⟩

/-- Tail of `saveRun` after a successful commit: when the run was promoted,
reload the PB from the store and recompute the best segments (a panic there
is propagated); otherwise return with the manager as is. -/
def saveRunFinish (isPB : Bool) (rm1 : RunManager) (db4 : DB) : Option SaveOutcome :=
  if isPB then
    let rm2 := { rm1 with pb := loadPersonalBest db4 }
    match ComputeBestSegments rm2 db4 with
    | none => none
    | some rm3 => some ⟨true, rm3, db4⟩
  else some ⟨true, rm1, db4⟩

/-- Model of `saveRun`.  The in-memory counters are incremented right after
the transaction begins, exactly as the source does; on a statement failure
the deferred rollback restores the database but the function returns with the
counters still incremented.  A Go panic is modelled as `none`.  After a
successful commit of a promoted run the PB is reloaded and the best segments
recomputed. -/
def saveRun (failAt : Option SaveStep) (now : Int) (completed : Bool)
    (rm : RunManager) (db : DB) : Option SaveOutcome :=
  if failAt = some SaveStep.txBegin then some ⟨false, rm, db⟩
  else
    let rm1 := { rm with
      attempts := rm.attempts + 1,
      completedRuns := if completed then rm.completedRuns + 1 else rm.completedRuns }
    if failAt = some SaveStep.updateConfig then some ⟨false, rm1, db⟩
    else
      let db1 := { db with config :=
        { db.config with attempts := rm1.attempts, completed := rm1.completedRuns } }
      if failAt = some SaveStep.insertRun then some ⟨false, rm1, db⟩
      else
        let runID := db.nextRunId
        let db2 := { db1 with
          runs := db1.runs ++ [newRunRow now completed rm db],
          nextRunId := runID + 1 }
        let isPB := promotes completed rm
        if isPB = true ∧ failAt = some SaveStep.clearPB then some ⟨false, rm1, db⟩
        else if isPB = true ∧ failAt = some SaveStep.setPB then some ⟨false, rm1, db⟩
        else
          let clearedRuns := db2.runs.map fun r => { r with isPB := false }
          let flaggedRuns := clearedRuns.map fun r =>
            if r.id = runID then { r with isPB := true } else r
          let db3 := if isPB then { db2 with runs := flaggedRuns } else db2
          match insertSplitRows failAt runID rm.splitNames rm.splits 0 with
          | none => none
          | some (false, _) => some ⟨false, rm1, db⟩
          | some (true, rows) =>
            let db4 := { db3 with splits := db3.splits ++ rows }
            if failAt = some SaveStep.commit then some ⟨false, rm1, db⟩
            else saveRunFinish isPB rm1 db4

/-! ## Lifecycle operations -/

/-- Model of `StartRun`: unconditionally begin a fresh attempt at time `now`. -/
def RunManager.StartRun (now : Int) (rm : RunManager) : RunManager :=
  { rm with
    isRunning := true,
    startTime := now,
    splitStartTime := now,
    currentSplit := 0,
    splits := [],
    isCompleted := false }

/-- Model of `Split` at time `now`: result is `(isLast, ok, rm, db)` where
`ok = false` means an error was returned.  The guard failure returns
`(false, error)` with no state change; the final split flips to completed and
saves the run (whose own error is propagated with `isLast = true`); a
non-final split advances the index and restarts the split clock. -/
def RunManager.Split (failAt : Option SaveStep) (now : Int)
    (rm : RunManager) (db : DB) : Option (Bool × Bool × RunManager × DB) :=
  if ¬ rm.isRunning = true ∨ (rm.splitNames.length : Int) ≤ rm.currentSplit then
    some (false, false, rm, db)
  else
    let splitDuration := now - rm.splitStartTime
    let rm1 := { rm with splits := rm.splits ++ [splitDuration] }
    if rm.currentSplit = (rm.splitNames.length : Int) - 1 then
      let rm2 := { rm1 with isRunning := false, isCompleted := true }
      match saveRun failAt now true rm2 db with
      | none => none
      | some o => some (true, o.ok, o.rm, o.db)
    else
      some (false, true,
        { rm1 with currentSplit := rm1.currentSplit + 1, splitStartTime := now }, db)

/-- Model of `UndoSplit` at time `now`: `(ok, rm)`; the guard failure leaves
the state unchanged, otherwise the last duration is dropped, the index
decremented, the split clock restarted and the completed flag cleared. -/
def RunManager.UndoSplit (now : Int) (rm : RunManager) : Bool × RunManager :=
  if ¬ rm.isRunning = true ∨ rm.splits = [] then (false, rm)
  else
    (true,
      { rm with
        splits := rm.splits.dropLast,
        currentSplit := rm.currentSplit - 1,
        splitStartTime := now,
        isCompleted := false })

/-- Model of `ResetRun` at time `now`: while running, the unfinished attempt
is saved with `completed = false` (an error aborts the reset before any state
is cleared); then all in-progress state is cleared. -/
def RunManager.ResetRun (failAt : Option SaveStep) (now : Int)
    (rm : RunManager) (db : DB) : Option (Bool × RunManager × DB) :=
  match (if rm.isRunning then saveRun failAt now false rm db
         else some ⟨true, rm, db⟩) with
  | none => none
  | some o =>
    if o.ok then
      some (true,
        { o.rm with isRunning := false, currentSplit := 0, splits := [], isCompleted := false },
        o.db)
    else some (false, o.rm, o.db)

/-! ## Configuration import -/

/-- One personal-best split entry of the import document. -/
structure PBSplit where
  time : String
deriving Repr, DecidableEq

/-- Personal-best block of the import document. -/
structure PBData where
  attempt : Int
  splits : List PBSplit
deriving Repr, DecidableEq

/-- The import document after JSON unmarshalling (`SpeedrunJSON`).  Reading
and unmarshalling the file are outside the embedding; a document that fails
to unmarshal aborts before any of the logic modelled here runs. -/
structure SpeedrunJSON where
  title : String
  category : String
  attempts : Int
  completed : Int
  splitNames : List String
  personalBest : Option PBData
deriving Repr, DecidableEq

/-- Model of `ImportFromJSON` on an already-unmarshalled document: one
transaction replacing config and split names, clearing every `is_pb` flag,
and, when a nonempty personal-best block is present, inserting the new PB run
with per-segment durations derived from the cumulative time strings (a string
Sscanf cannot scan contributes zero, since the source discards the scan
error).  After commit the in-memory fields are replaced and the PB reloaded.
`none` models the Go panic when the PB block has more splits than the
document's split-name list. -/
def RunManager.ImportFromJSON (now : Int) (doc : SpeedrunJSON)
    (rm : RunManager) (db : DB) : Option (RunManager × DB) :=
  let db1 := { db with
    config := ⟨doc.title, doc.category, doc.attempts, doc.completed⟩,
    splitNames := doc.splitNames,
    runs := db.runs.map fun r => { r with isPB := false } }
  let afterPB : Option DB :=
    match doc.personalBest with
    | none => some db1
    | some pbd =>
      if pbd.splits.length = 0 then some db1
      else
        let startT := now - 86400000000000
        let segs := importSegments (pbd.splits.map fun s => s.time)
        let total := sumD segs
        let endT := startT + total
        let runID := db1.nextRunId
        let runRow : RunRow :=
          ⟨runID, doc.title, doc.category, startT, endT, true, true, pbd.attempt⟩
        match insertSplitRows none runID doc.splitNames segs 0 with
        | none => none
        | some (_, rows) =>
          some { db1 with
            runs := db1.runs ++ [runRow],
            splits := db1.splits ++ rows,
            nextRunId := runID + 1 }
  match afterPB with
  | none => none
  | some db2 =>
    some ({ rm with
      title := doc.title,
      category := doc.category,
      attempts := doc.attempts,
      completedRuns := doc.completed,
      splitNames := doc.splitNames,
      pb := loadPersonalBest db2 }, db2)

/-! ## Traces and reachability -/

/-- Iterated `Split` calls, one per entry of the time list, collecting each
call's `(isLast, ok)` result pair. -/
def splitSteps (failAt : Option SaveStep) :
    List Int → RunManager → DB → Option (List (Bool × Bool) × RunManager × DB)
  | [], rm, db => some ([], rm, db)
  | t :: ts, rm, db =>
    match RunManager.Split failAt t rm db with
    | none => none
    | some (last, ok, rm', db') =>
      match splitSteps failAt ts rm' db' with
      | none => none
      | some (rs, rmF, dbF) => some ((last, ok) :: rs, rmF, dbF)

/-- State of a freshly constructed manager (`NewRunManager`): no attempt in
progress, index zero, no recorded durations. -/
def RunManager.initState (rm : RunManager) : Prop :=
  rm.isRunning = false ∧ rm.currentSplit = 0 ∧ rm.splits = [] ∧ rm.isCompleted = false

/-- States reachable from a fresh manager by any sequence of `StartRun`,
`Split`, `UndoSplit` and `ResetRun` calls, at arbitrary times and with
arbitrary injected persistence failures. -/
inductive Reachable : RunManager → DB → Prop where
  | init (rm : RunManager) (db : DB) : rm.initState → Reachable rm db
  | start (rm : RunManager) (db : DB) (t : Int) :
      Reachable rm db → Reachable (RunManager.StartRun t rm) db
  | split (rm : RunManager) (db : DB) (fa : Option SaveStep) (t : Int)
      (last ok : Bool) (rm' : RunManager) (db' : DB) :
      Reachable rm db → RunManager.Split fa t rm db = some (last, ok, rm', db') →
      Reachable rm' db'
  | undo (rm : RunManager) (db : DB) (t : Int) (ok : Bool) (rm' : RunManager) :
      Reachable rm db → RunManager.UndoSplit t rm = (ok, rm') → Reachable rm' db
  | reset (rm : RunManager) (db : DB) (fa : Option SaveStep) (t : Int)
      (ok : Bool) (rm' : RunManager) (db' : DB) :
      Reachable rm db → RunManager.ResetRun fa t rm db = some (ok, rm', db') →
      Reachable rm' db'

/-! ## Aggregation facts stated from the store -/

/-- Durations recorded at split index `i` in a list of split rows. -/
def dursAtIdx (rows : List SplitRow) (i : Nat) : List Int :=
  (rows.filter fun s => s.splitIndex = (i : Int)).map fun s => s.durationNs

/-- Minimum duration stored at split index `i` across all completed runs;
`none` when no completed run recorded data at that index. -/
def minDurAt (db : DB) (i : Nat) : Option Int :=
  match dursAtIdx (completedSplitRows db) i with
  | [] => none
  | d :: ds => some (ds.foldl min d)

/-- Ids of runs are below the AUTOINCREMENT counter and split rows reference
only such runs; both hold for every database this code ever produces. -/
def DB.WF (db : DB) : Prop :=
  (∀ r ∈ db.runs, r.id < db.nextRunId) ∧ (∀ s ∈ db.splits, s.runId < db.nextRunId)

/-! ## Derived descriptions of successful saves (proved equal to `saveRun`) -/

/-- Manager counters after a save: attempts incremented, completed-runs
incremented only for a completed save. -/
def rmAfterSave (c : Bool) (rm : RunManager) : RunManager :=
  { rm with
    attempts := rm.attempts + 1,
    completedRuns := if c then rm.completedRuns + 1 else rm.completedRuns }

/-- Config row written by the save transaction. -/
def savedConfig (c : Bool) (rm : RunManager) (db : DB) : ConfigRow :=
  { db.config with
    attempts := rm.attempts + 1,
    completed := if c then rm.completedRuns + 1 else rm.completedRuns }

/-- Database after a committed save without PB promotion. -/
def dbAfterSave (now : Int) (c : Bool) (rm : RunManager) (db : DB) : DB :=
  { db with
    config := savedConfig c rm db,
    runs := db.runs ++ [newRunRow now c rm db],
    splits := db.splits ++ mkRows db.nextRunId rm.splitNames rm.splits 0,
    nextRunId := db.nextRunId + 1 }

/-- Database after a committed save with PB promotion: every prior flag
cleared, the new row flagged. -/
def dbAfterSavePB (now : Int) (rm : RunManager) (db : DB) : DB :=
  { db with
    config := savedConfig true rm db,
    runs := (db.runs.map fun r => { r with isPB := false }) ++
      [{ newRunRow now true rm db with isPB := true }],
    splits := db.splits ++ mkRows db.nextRunId rm.splitNames rm.splits 0,
    nextRunId := db.nextRunId + 1 }

/-- Personal best as reloaded right after a promoted save (best segments not
yet filled in). -/
def pbLoaded (now : Int) (rm : RunManager) (db : DB) : Run :=
  ⟨db.nextRunId, rm.title, rm.category, rm.startTime, now, true, true, rm.attempts + 1,
   (mkRows db.nextRunId rm.splitNames rm.splits 0).map fun s => ⟨s.splitName, s.durationNs, 0⟩⟩

/-! ## Concrete states used by witnesses and counterexamples -/

/-- Personal best with two 10ns segments (total 20ns). -/
def pbDemo : Run :=
  ⟨0, "T", "C", 0, 20, true, true, 1, [⟨"A", 10, 10⟩, ⟨"B", 10, 10⟩]⟩

/-- Manager holding `pbDemo`, having just completed an attempt with segments
1ns and 100ns (total 101ns, slower than the PB). -/
def rmDemo : RunManager :=
  ⟨"T", "C", 3, 2, ["A", "B"], [1, 100], some pbDemo, 0, 0, false, 0, true⟩

/-- Database matching `rmDemo`: one completed PB run with 10ns segments. -/
def dbDemo : DB :=
  ⟨⟨"T", "C", 3, 2⟩, ["A", "B"],
   [⟨0, "T", "C", 0, 20, true, true, 1⟩],
   [⟨0, 0, "A", 10⟩, ⟨0, 1, "B", 10⟩], 1⟩

/-- Same manager with a faster attempt (1ns and 2ns, beats the PB). -/
def rmDemoFast : RunManager := { rmDemo with splits := [1, 2] }

/-- Same manager after the split-name list shrank to a single name while the
loaded PB still has two splits. -/
def rmDemoShrunk : RunManager := { rmDemo with splitNames := ["A"] }

/-- Import document whose single personal-best split time cannot be scanned
as a number. -/
def docBadTime : SpeedrunJSON :=
  ⟨"Imported", "Any%", 7, 4, ["A"], some ⟨1, [⟨"abc"⟩]⟩⟩

/-- Idle manager over two splits with empty history. -/
def rmIdle : RunManager :=
  ⟨"T", "C", 0, 0, ["A", "B"], [], none, 0, 0, false, 0, false⟩

/-- Empty database matching `rmIdle`. -/
def dbEmpty : DB := ⟨⟨"T", "C", 0, 0⟩, ["A", "B"], [], [], 0⟩

/-- Manager mid-run: one 5ns split recorded, on split index 1. -/
def rmMidRun : RunManager :=
  { rmDemo with isRunning := true, currentSplit := 1, splits := [5], isCompleted := false }

/-! ## Theorems -/

/-- Auxiliary: the import conversion loop equals cumulative differencing once
the running total is started from the previous cumulative value. -/
theorem importSegAux_eq_specSegAux (ts : List String) :
    ∀ (i : Nat), i ≠ 0 → ∀ (prev : Int),
      importSegAux i prev ts = specSegAux prev (ts.map parseClockNs) := by
  induction ts with
  | nil => intro i _ prev; rfl
  | cons t ts ih =>
    intro i hi prev
    simp only [importSegAux, specSegAux, List.map]
    rw [if_neg hi]
    have h2 : prev + (parseClockNs t - prev) = parseClockNs t := by ring
    rw [h2, ih (i + 1) (by omega) (parseClockNs t)]

/-- Auxiliary: the import conversion agrees with the cumulative-differencing
specification on every list of time strings. -/
theorem importSegments_eq_spec (ts : List String) :
    importSegments ts = specSegmentsOfCumulative (ts.map parseClockNs) := by
  cases ts with
  | nil => rfl
  | cons t ts =>
    simp only [importSegments, importSegAux, specSegmentsOfCumulative, specSegAux, List.map,
      if_pos]
    rw [importSegAux_eq_specSegAux ts (0 + 1) (by omega) (0 + parseClockNs t), zero_add,
      sub_zero]

/-- C7: importing cumulative clock strings converts them to per-segment
durations by differencing consecutive cumulative values (first segment its
own cumulative value, later segments the difference with the previous one);
in particular "0:49.000" and "2:46.000" yield 49.000s and 117.000s, not
49.000s and 166.000s. -/
theorem C7_cumulative_differencing :
    (∀ ts : List String,
      importSegments ts = specSegmentsOfCumulative (ts.map parseClockNs)) ∧
    importSegments ["0:49.000", "2:46.000"] = [49000000000, 117000000000] ∧
    ([49000000000, 117000000000] : List Int) ≠ [49000000000, 166000000000] := by
  refine ⟨importSegments_eq_spec, by decide, by decide⟩

/-- C9: an InvalidState failure is reported and mutates nothing: `Split` when
not running or with all split indices consumed, and `UndoSplit` when not
running or with no recorded durations, each return an error with the manager
and the store exactly as they were. -/
theorem C9_invalid_state_no_mutation (fa : Option SaveStep) (t : Int)
    (rm : RunManager) (db : DB) :
    ((¬ rm.isRunning = true ∨ (rm.splitNames.length : Int) ≤ rm.currentSplit) →
      RunManager.Split fa t rm db = some (false, false, rm, db)) ∧
    ((¬ rm.isRunning = true ∨ rm.splits = []) →
      RunManager.UndoSplit t rm = (false, rm)) := by
  constructor
  · intro h
    unfold RunManager.Split
    rw [if_pos h]
  · intro h
    unfold RunManager.UndoSplit
    rw [if_pos h]

/-- Witness for C9 at a concrete idle state. -/
theorem C9_invalid_state_no_mutation_witness :
    RunManager.Split none 3 rmIdle dbEmpty = some (false, false, rmIdle, dbEmpty) ∧
    RunManager.UndoSplit 3 rmIdle = (false, rmIdle) :=
  ⟨(C9_invalid_state_no_mutation none 3 rmIdle dbEmpty).1 (Or.inl (by decide)),
   (C9_invalid_state_no_mutation none 3 rmIdle dbEmpty).2 (Or.inl (by decide))⟩

/-- C1 (code bug): a persistence failure injected at the config-update
statement, after the transaction began, rolls the database back but leaves
the in-memory attempts and completed-runs counters incremented: from
`attempts = 3, completedRuns = 2` the failed completed save returns with
`attempts = 4, completedRuns = 3`, diverging from the claim that they are
unchanged. -/
theorem C1_counters_survive_failed_save :
    ∃ o, saveRun (some SaveStep.updateConfig) 5 true rmDemo dbDemo = some o ∧
      o.ok = false ∧ o.db = dbDemo ∧
      rmDemo.attempts = 3 ∧ o.rm.attempts = 4 ∧
      rmDemo.completedRuns = 2 ∧ o.rm.completedRuns = 3 := by
  refine ⟨_, rfl, by decide, by decide, by decide, by decide, by decide, by decide⟩

/-- C2 (code bug): an import whose personal-best split time "abc" cannot be
scanned as a number does not abort: the scan error is discarded, the segment
duration becomes zero, and the whole import commits — the title, counters and
split names are replaced and a PB run with a zero-duration split is inserted. -/
theorem C2_malformed_time_still_imports :
    ∃ out, RunManager.ImportFromJSON 0 docBadTime rmDemo dbDemo = some out ∧
      out.1.title = "Imported" ∧ rmDemo.title = "T" ∧
      out.1.attempts = 7 ∧ out.1.splitNames = ["A"] ∧
      out.2.config.title = "Imported" ∧
      (out.2.splits.map fun s => s.durationNs) = [10, 10, 0] ∧
      (out.2.runs.map fun r => (r.isPB, r.completed)) =
        [(false, true), (true, true)] := by
  refine ⟨_, rfl, by decide, by decide, by decide, by decide, by decide, by decide, by decide⟩

/-- C5 (code bug): with a current split-name list of one name and a loaded PB
of two splits, `ComputeBestSegments` indexes its slot array out of range and
panics instead of treating the extra index as "no data". -/
theorem C5_best_segments_out_of_range :
    ComputeBestSegments rmDemoShrunk dbDemo = none := by decide

/-- Auxiliary: with no failure injected and enough split names, the
split-insertion loop succeeds and produces exactly the rows of `mkRows`. -/
theorem insertSplitRows_none (runID : Nat) (names : List String) :
    ∀ (ds : List Int) (i : Nat), i + ds.length ≤ names.length →
      insertSplitRows none runID names ds i = some (true, mkRows runID names ds i) := by
  intro ds
  induction ds with
  | nil => intro i h; rfl
  | cons d ds ih =>
    intro i h
    have hi : i < names.length := by
      simp only [List.length_cons] at h; omega
    obtain ⟨nm, hnm⟩ : ∃ nm, names.get? i = some nm := by
      rw [List.get?_eq_get hi]; exact ⟨_, rfl⟩
    have hgetD : names.getD i "" = nm := by
      simp only [List.getD_eq_getElem?_getD, ← List.get?_eq_getElem?, hnm, Option.getD_some]
    simp only [insertSplitRows, hnm, mkRows, hgetD]
    rw [ih (i + 1) (by simp only [List.length_cons] at h; omega)]
    simp

/-- Auxiliary: a successful `ComputeBestSegments` changes at most the loaded
personal best, leaving every other manager field as it was. -/
theorem ComputeBestSegments_shape (rm : RunManager) (db : DB) (rm' : RunManager)
    (h : ComputeBestSegments rm db = some rm') :
    ∃ p, rm' = { rm with pb := p } := by
  unfold ComputeBestSegments at h
  split at h
  · cases h; exact ⟨rm.pb, rfl⟩
  · split at h
    · cases h; exact ⟨rm.pb, rfl⟩
    · dsimp only at h
      split at h
      · cases h; exact ⟨_, rfl⟩
      · exact absurd h (by simp)

/-- Auxiliary: a failure-free save that does not promote (an unfinished run,
or a completed one not beating the PB) commits the counter update, the new
run row (flag false) and its split rows, and touches nothing else. -/
theorem saveRun_none_not_promoted (now : Int) (c : Bool) (rm : RunManager) (db : DB)
    (hp : promotes c rm = false)
    (hlen : rm.splits.length ≤ rm.splitNames.length) :
    saveRun none now c rm db =
      some ⟨true, rmAfterSave c rm, dbAfterSave now c rm db⟩ := by
  have hins := insertSplitRows_none db.nextRunId rm.splitNames rm.splits 0 (by omega)
  simp [saveRun, saveRunFinish, hp, hins, rmAfterSave, dbAfterSave, savedConfig]

/-- Auxiliary: every row produced by `mkRows` carries the inserted run's id. -/
theorem mkRows_runId (runID : Nat) (names : List String) :
    ∀ (ds : List Int) (i : Nat) (s : SplitRow), s ∈ mkRows runID names ds i → s.runId = runID := by
  intro ds
  induction ds with
  | nil => intro i s hs; cases hs
  | cons d ds ih =>
    intro i s hs
    rcases List.mem_cons.mp hs with h | hs
    · rw [h]
    · exact ih (i + 1) s hs

/-- Auxiliary: every row produced by `mkRows` at base index `i` has split
index at least `i`. -/
theorem mkRows_idx (runID : Nat) (names : List String) :
    ∀ (ds : List Int) (i : Nat) (s : SplitRow), s ∈ mkRows runID names ds i →
      (i : Int) ≤ s.splitIndex := by
  intro ds
  induction ds with
  | nil => intro i s hs; cases hs
  | cons d ds ih =>
    intro i s hs
    rcases List.mem_cons.mp hs with h | hs
    · rw [h]
    · have := ih (i + 1) s hs
      omega

/-- Auxiliary: length of the produced split rows. -/
theorem mkRows_length (runID : Nat) (names : List String) :
    ∀ (ds : List Int) (i : Nat), (mkRows runID names ds i).length = ds.length := by
  intro ds
  induction ds with
  | nil => intro i; rfl
  | cons d ds ih => intro i; simp [mkRows, ih]

/-- Auxiliary: inserting an element no larger than everything in the list
puts it at the front. -/
theorem insSorted_le (s : SplitRow) (l : List SplitRow)
    (h : ∀ t ∈ l, s.splitIndex ≤ t.splitIndex) : insSorted s l = s :: l := by
  cases l with
  | nil => rfl
  | cons t ts =>
    unfold insSorted
    rw [if_pos (h t (by simp))]

/-- Auxiliary: the rows of `mkRows` are already in index order, so the
`ORDER BY split_index` model leaves them unchanged. -/
theorem sortByIndex_mkRows (runID : Nat) (names : List String) :
    ∀ (ds : List Int) (i : Nat),
      sortByIndex (mkRows runID names ds i) = mkRows runID names ds i := by
  intro ds
  induction ds with
  | nil => intro i; rfl
  | cons d ds ih =>
    intro i
    show insSorted _ (sortByIndex (mkRows runID names ds (i + 1))) = _
    rw [ih (i + 1)]
    exact insSorted_le _ _ (fun t ht => by
      have := mkRows_idx runID names ds (i + 1) t ht
      simp only []
      omega)

/-- Auxiliary: a search failing on the first list continues in the second. -/
theorem find?_append_of_none {α : Type} (p : α → Bool) (l₁ l₂ : List α)
    (h : l₁.find? p = none) : (l₁ ++ l₂).find? p = l₂.find? p := by
  induction l₁ with
  | nil => rfl
  | cons a l₁ ih =>
    rw [List.find?_cons] at h
    rw [List.cons_append, List.find?_cons]
    rcases hp : p a with _ | _
    · rw [hp] at h
      exact ih h
    · rw [hp] at h
      exact Option.noConfusion h

/-- Auxiliary: no run row survives the PB search after its flag is cleared. -/
theorem find?_cleared (l : List RunRow) :
    (l.map fun r => { r with isPB := false }).find?
      (fun r => r.isPB && r.completed) = none := by
  induction l with
  | nil => rfl
  | cons r l ih => simpa using ih

/-- Auxiliary: length of the write-back result. -/
theorem setBest_length (xs : List Split) (bs : List Int) :
    (setBest xs bs).length = xs.length := by
  induction xs generalizing bs with
  | nil => cases bs <;> rfl
  | cons x xs ih =>
    cases bs with
    | nil => rfl
    | cons b bs => simp [setBest, ih]

/-- Auxiliary: value written back into PB split `i`. -/
theorem setBest_bestSegment (xs : List Split) (bs : List Int) (i : Nat)
    (hi : i < xs.length) (hb : xs.length ≤ bs.length) :
    ((setBest xs bs).getD i default).bestSegment = bs.getD i 0 := by
  induction xs generalizing bs i with
  | nil => cases hi
  | cons x xs ih =>
    cases bs with
    | nil => simp only [List.length_cons, List.length_nil] at hb; omega
    | cons b bs =>
      cases i with
      | zero => simp [setBest]
      | succ i =>
        simp only [setBest, List.getD_cons_succ]
        exact ih bs i (by simpa using hi) (by simpa using hb)

/-- Auxiliary: slot-scan step preserves the slot count. -/
theorem bestStep_length (n : Nat) (acc : List Int) (s : SplitRow) :
    (bestStep n acc s).length = acc.length := by
  unfold bestStep; split <;> simp

/-- Auxiliary: the slot scan preserves the slot count. -/
theorem foldl_bestStep_length (n : Nat) (rows : List SplitRow) :
    ∀ acc : List Int, (rows.foldl (bestStep n) acc).length = acc.length := by
  induction rows with
  | nil => intro acc; rfl
  | cons s rows ih => intro acc; rw [List.foldl_cons, ih, bestStep_length]

/-- Auxiliary: the computed slot list has one slot per current split name. -/
theorem bestSegments_length (db : DB) (n : Nat) : (bestSegments db n).length = n := by
  unfold bestSegments; rw [foldl_bestStep_length]; simp

/-- Auxiliary: reloading the personal best right after a promoted save finds
exactly the just-inserted run with the just-inserted split rows. -/
theorem loadPB_promoted (now : Int) (rm : RunManager) (db : DB)
    (hsps : ∀ s ∈ db.splits, s.runId < db.nextRunId) :
    loadPersonalBest (dbAfterSavePB now rm db) = some (pbLoaded now rm db) := by
  unfold loadPersonalBest dbAfterSavePB
  rw [find?_append_of_none _ _ _ (find?_cleared db.runs)]
  simp only [List.find?_cons, newRunRow]
  have hfilter :
      ((db.splits ++ mkRows db.nextRunId rm.splitNames rm.splits 0).filter
        fun s => s.runId = db.nextRunId) =
      mkRows db.nextRunId rm.splitNames rm.splits 0 := by
    rw [List.filter_append]
    rw [List.filter_eq_nil.mpr (fun s hs => by
      have := hsps s hs
      simp only [decide_eq_true_eq]
      omega)]
    rw [List.filter_eq_self.mpr (fun s hs => by
      have := mkRows_runId db.nextRunId rm.splitNames rm.splits 0 s hs
      simp [this])]
    rfl
  simp [hfilter, sortByIndex_mkRows, pbLoaded]

/-- Auxiliary: shape of a failure-free promoted save, with the PB reload
still unevaluated. -/
theorem saveRun_none_promoted_eq (now : Int) (rm : RunManager) (db : DB)
    (hp : promotes true rm = true)
    (hlen : rm.splits.length ≤ rm.splitNames.length)
    (hids : ∀ r ∈ db.runs, r.id < db.nextRunId) :
    saveRun none now true rm db =
      (match ComputeBestSegments { rmAfterSave true rm with pb := loadPersonalBest (dbAfterSavePB now rm db) } (dbAfterSavePB now rm db) with
       | none => none
       | some rm3 => some ⟨true, rm3, dbAfterSavePB now rm db⟩) := by
  have hins := insertSplitRows_none db.nextRunId rm.splitNames rm.splits 0 (by omega)
  have h1 : List.map ((fun r : RunRow => if r.id = db.nextRunId then { r with isPB := true } else r) ∘ (fun r : RunRow => { r with isPB := false })) db.runs = db.runs.map (fun r : RunRow => { r with isPB := false }) := by
    apply List.map_congr_left
    intro r hr
    have h := Nat.ne_of_lt (hids r hr)
    simp [Function.comp, h]
  simp [saveRun, saveRunFinish, hp, hins, rmAfterSave, dbAfterSavePB, savedConfig, newRunRow, h1]

/-- Auxiliary: a failure-free promoted save succeeds, writes the promoted
database state, and reloads a PB whose best segments come slot by slot from
the freshly recomputed slot list. -/
theorem saveRun_none_promoted (now : Int) (rm : RunManager) (db : DB)
    (hp : promotes true rm = true)
    (hlen : rm.splits.length ≤ rm.splitNames.length)
    (hids : ∀ r ∈ db.runs, r.id < db.nextRunId)
    (hsps : ∀ s ∈ db.splits, s.runId < db.nextRunId) :
    ∃ pbX : Run,
      saveRun none now true rm db =
        some ⟨true, { rmAfterSave true rm with pb := some pbX }, dbAfterSavePB now rm db⟩ ∧
      pbX.splits.length = rm.splits.length ∧
      ∀ i : Nat, i < rm.splits.length →
        (pbX.splits.getD i default).bestSegment =
          (bestSegments (dbAfterSavePB now rm db) rm.splitNames.length).getD i 0 := by
  rw [saveRun_none_promoted_eq now rm db hp hlen hids, loadPB_promoted now rm db hsps]
  have hplen : (pbLoaded now rm db).splits.length = rm.splits.length := by
    simp [pbLoaded, mkRows_length]
  by_cases hsp : rm.splits.length = 0
  · have hc : ComputeBestSegments { rmAfterSave true rm with pb := some (pbLoaded now rm db) } (dbAfterSavePB now rm db) = some { rmAfterSave true rm with pb := some (pbLoaded now rm db) } := by
      simp [ComputeBestSegments, hplen, hsp]
    rw [hc]
    exact ⟨pbLoaded now rm db, rfl, hplen, fun i hi => absurd hi (by omega)⟩
  · have hc : ComputeBestSegments { rmAfterSave true rm with pb := some (pbLoaded now rm db) } (dbAfterSavePB now rm db) = some { rmAfterSave true rm with pb := some { pbLoaded now rm db with splits := setBest (pbLoaded now rm db).splits (bestSegments (dbAfterSavePB now rm db) rm.splitNames.length) } } := by
      simp [ComputeBestSegments, hplen, hsp, hlen, rmAfterSave]
    rw [hc]
    refine ⟨_, rfl, ?_, ?_⟩
    · simp [setBest_length, hplen]
    · intro i hi
      exact setBest_bestSegment _ _ i (by omega)
        (by rw [hplen, bestSegments_length]; omega)

/-- Auxiliary: reading a slot after one scan step: the slot targeted by the
row becomes the minimum of old value and row duration, others are untouched. -/
theorem bestStep_getD (n : Nat) (acc : List Int) (s : SplitRow) (i : Nat)
    (hacc : acc.length = n) (hi : i < n) :
    (bestStep n acc s).getD i 0 =
      if s.splitIndex = (i : Int) then min (acc.getD i 0) s.durationNs
      else acc.getD i 0 := by
  have hgd : ∀ (l : List Int) (j : Nat), l.getD j 0 = (l.get? j).getD 0 := by
    intro l j
    rw [List.getD_eq_getElem?_getD, ← List.get?_eq_getElem?]
  by_cases hidx : s.splitIndex = (i : Int)
  · rw [if_pos hidx]
    have htn : s.splitIndex.toNat = i := by omega
    unfold bestStep
    by_cases hlt : s.durationNs < acc.getD s.splitIndex.toNat 0
    · rw [if_pos ⟨by omega, by omega, hlt⟩, htn]
      rw [hgd, List.get?_set_of_lt _ _ (by omega), if_pos rfl, Option.getD_some]
      rw [htn] at hlt
      exact (min_eq_right (le_of_lt hlt)).symm
    · rw [if_neg (fun hcon => hlt hcon.2.2)]
      rw [htn] at hlt
      exact (min_eq_left (by omega)).symm
  · rw [if_neg hidx]
    unfold bestStep
    split
    · rename_i hcond
      have htn : s.splitIndex.toNat ≠ i := by omega
      rw [hgd, List.get?_set_of_lt _ _ (by omega), if_neg htn, ← hgd]
    · rfl

/-- Auxiliary: slot `i` after the whole scan is the running minimum of the
durations recorded at index `i`, started from the initial slot value. -/
theorem foldl_bestStep_getD (n : Nat) (rows : List SplitRow) :
    ∀ (acc : List Int) (i : Nat), acc.length = n → i < n →
      (rows.foldl (bestStep n) acc).getD i 0 =
        (dursAtIdx rows i).foldl min (acc.getD i 0) := by
  induction rows with
  | nil => intro acc i _ _; rfl
  | cons s rows ih =>
    intro acc i hacc hi
    rw [List.foldl_cons, ih _ i (by rw [bestStep_length]; exact hacc) hi]
    rw [bestStep_getD n acc s i hacc hi]
    by_cases hidx : s.splitIndex = (i : Int)
    · rw [if_pos hidx]
      have hcons : dursAtIdx (s :: rows) i = s.durationNs :: dursAtIdx rows i := by
        simp [dursAtIdx, List.filter_cons, hidx]
      rw [hcons, List.foldl_cons]
    · rw [if_neg hidx]
      have hsame : dursAtIdx (s :: rows) i = dursAtIdx rows i := by
        simp [dursAtIdx, List.filter_cons, hidx]
      rw [hsame]

/-- Auxiliary: slot `i` of the computed best segments is the minimum over the
recorded durations at index `i`, seeded with the sentinel. -/
theorem bestSegments_getD (db : DB) (n i : Nat) (hi : i < n) :
    (bestSegments db n).getD i 0 =
      (dursAtIdx (completedSplitRows db) i).foldl min bigDur := by
  unfold bestSegments
  rw [foldl_bestStep_getD n _ _ i (by simp) hi]
  congr 1
  rw [List.getD_eq_getElem?_getD, List.getElem?_replicate, if_pos hi, Option.getD_some]

/-- Auxiliary: when data exists at index `i` and all of it is below the
sentinel, the sentinel-seeded minimum is the stored minimum. -/
theorem minDurAt_of_foldl (db : DB) (i : Nat)
    (hne : dursAtIdx (completedSplitRows db) i ≠ [])
    (hbd : ∀ d ∈ dursAtIdx (completedSplitRows db) i, d ≤ bigDur) :
    minDurAt db i = some ((dursAtIdx (completedSplitRows db) i).foldl min bigDur) := by
  unfold minDurAt
  cases hl : dursAtIdx (completedSplitRows db) i with
  | nil => exact absurd hl hne
  | cons d t =>
    rw [List.foldl_cons]
    have hd : d ≤ bigDur := hbd d (by rw [hl]; simp)
    rw [min_eq_right hd]

/-- Auxiliary: each row of `mkRows` takes its duration from the input list. -/
theorem mkRows_dur_mem (runID : Nat) (names : List String) :
    ∀ (ds : List Int) (j : Nat) (s : SplitRow), s ∈ mkRows runID names ds j →
      s.durationNs ∈ ds := by
  intro ds
  induction ds with
  | nil => intro j s hs; cases hs
  | cons d ds ih =>
    intro j s hs
    rcases List.mem_cons.mp hs with h | hs
    · rw [h]; exact List.mem_cons_self _ _
    · exact List.mem_cons_of_mem _ (ih (j + 1) s hs)

/-- Auxiliary: `mkRows` contains a row at every index of the input list. -/
theorem mkRows_mem_idx (runID : Nat) (names : List String) :
    ∀ (ds : List Int) (j i : Nat), i < ds.length →
      ∃ s ∈ mkRows runID names ds j, s.splitIndex = ((j + i : Nat) : Int) := by
  intro ds
  induction ds with
  | nil => intro j i hi; cases hi
  | cons d ds ih =>
    intro j i hi
    cases i with
    | zero =>
      exact ⟨_, List.mem_cons_self _ _, by simp⟩
    | succ i =>
      obtain ⟨s, hs, hidx⟩ := ih (j + 1) i (by simpa using hi)
      exact ⟨s, List.mem_cons_of_mem _ hs, by rw [hidx]; congr 1; omega⟩

/-- C3, counterexample: saving a completed run with a new minimum 1ns at
index 0 that is not promoted (total 101ns against the 20ns PB) leaves the
in-memory best segment at index 0 equal to 10ns even though the stored
minimum across completed runs is now 1ns, so best segments are not updated
after every completed save. -/
theorem C3_stale_without_promotion :
    ∃ o, saveRun none 0 true rmDemo dbDemo = some o ∧ o.ok = true ∧
      minDurAt o.db 0 = some 1 ∧
      (o.rm.pb.map fun pb => pb.splits.map fun s => s.bestSegment) = some [10, 10] := by
  refine ⟨_, rfl, by decide, by decide, by decide⟩

/-- C3 (amended): after a failure-free completed save the in-memory best
segment at every index equals the minimum duration stored at that index
across all completed runs when the run is promoted to PB; a completed save
that is not promoted leaves the loaded PB, and with it every in-memory best
segment, untouched (stale until the next promotion, startup or override). -/
theorem C3_best_segments_after_save (now : Int) (rm : RunManager) (db : DB)
    (hlen : rm.splits.length ≤ rm.splitNames.length)
    (hids : ∀ r ∈ db.runs, r.id < db.nextRunId)
    (hsps : ∀ s ∈ db.splits, s.runId < db.nextRunId)
    (hbd : ∀ s ∈ db.splits, s.durationNs ≤ bigDur)
    (hbd2 : ∀ d ∈ rm.splits, d ≤ bigDur) :
    (promotes true rm = true →
      ∃ pbX : Run,
        saveRun none now true rm db =
          some ⟨true, { rmAfterSave true rm with pb := some pbX }, dbAfterSavePB now rm db⟩ ∧
        pbX.splits.length = rm.splits.length ∧
        ∀ i : Nat, i < pbX.splits.length →
          some ((pbX.splits.getD i default).bestSegment) =
            minDurAt (dbAfterSavePB now rm db) i) ∧
    (promotes true rm = false →
      saveRun none now true rm db =
        some ⟨true, rmAfterSave true rm, dbAfterSave now true rm db⟩) := by
  constructor
  · intro hp
    obtain ⟨pbX, heq, hlenX, hbest⟩ := saveRun_none_promoted now rm db hp hlen hids hsps
    refine ⟨pbX, heq, hlenX, ?_⟩
    intro i hi
    rw [hlenX] at hi
    rw [hbest i hi]
    have hin : i < rm.splitNames.length := by omega
    rw [bestSegments_getD _ _ i hin]
    obtain ⟨s, hsmem, hsidx⟩ := mkRows_mem_idx db.nextRunId rm.splitNames rm.splits 0 i hi
    have hsidx2 : s.splitIndex = (i : Int) := by simpa using hsidx
    have hsdb : s ∈ (dbAfterSavePB now rm db).splits := by
      unfold dbAfterSavePB
      exact List.mem_append_right _ hsmem
    have hsrun : s.runId = db.nextRunId := mkRows_runId _ _ _ _ s hsmem
    have hscsr : s ∈ completedSplitRows (dbAfterSavePB now rm db) := by
      unfold completedSplitRows
      refine List.mem_filter.mpr ⟨hsdb, ?_⟩
      apply List.any_eq_true.mpr
      refine ⟨{ newRunRow now true rm db with isPB := true }, ?_, ?_⟩
      · unfold dbAfterSavePB
        exact List.mem_append_right _ (by simp)
      · simp [newRunRow, hsrun]
    have hdmem : s.durationNs ∈ dursAtIdx (completedSplitRows (dbAfterSavePB now rm db)) i := by
      unfold dursAtIdx
      exact List.mem_map_of_mem _ (List.mem_filter.mpr ⟨hscsr, by simp [hsidx2]⟩)
    have hne := List.ne_nil_of_mem hdmem
    have hbdall : ∀ d ∈ dursAtIdx (completedSplitRows (dbAfterSavePB now rm db)) i, d ≤ bigDur := by
      intro d hd
      unfold dursAtIdx at hd
      obtain ⟨t, ht, rfl⟩ := List.mem_map.mp hd
      have ht1 : t ∈ completedSplitRows (dbAfterSavePB now rm db) := List.mem_of_mem_filter ht
      have ht2 : t ∈ (dbAfterSavePB now rm db).splits := List.mem_of_mem_filter ht1
      unfold dbAfterSavePB at ht2
      rcases List.mem_append.mp ht2 with h | h
      · exact hbd t h
      · exact hbd2 _ (mkRows_dur_mem _ _ _ _ t h)
    rw [minDurAt_of_foldl _ i hne hbdall]
  · intro hp
    exact saveRun_none_not_promoted now true rm db hp hlen

/-- Witness for the amended C3 at a concrete promoted save. -/
theorem C3_best_segments_after_save_witness :
    ∃ pbX : Run,
      saveRun none 5 true rmDemoFast dbDemo =
        some ⟨true, { rmAfterSave true rmDemoFast with pb := some pbX }, dbAfterSavePB 5 rmDemoFast dbDemo⟩ ∧
      pbX.splits.length = rmDemoFast.splits.length ∧
      ∀ i : Nat, i < pbX.splits.length →
        some ((pbX.splits.getD i default).bestSegment) =
          minDurAt (dbAfterSavePB 5 rmDemoFast dbDemo) i :=
  (C3_best_segments_after_save 5 rmDemoFast dbDemo (by decide) (by decide) (by decide)
    (by decide) (by decide)).1 (by decide)

/-- Auxiliary: clearing flags leaves no `is_pb` bit set. -/
theorem map_cleared_isPB (l : List RunRow) :
    (l.map fun r => ({ r with isPB := false } : RunRow)).map (fun r => r.isPB) =
      l.map fun _ => false := by
  induction l with
  | nil => rfl
  | cons r l ih => simpa using ih

/-- Auxiliary: a save without promotion does not change the number of
flagged rows. -/
theorem countPB_dbAfterSave (now : Int) (c : Bool) (rm : RunManager) (db : DB) :
    countPB (dbAfterSave now c rm db) = countPB db := by
  unfold countPB dbAfterSave newRunRow
  simp

/-- Auxiliary: clearing flags, then reading them, yields all-false. -/
theorem map_cleared_isPB_replicate (l : List RunRow) :
    l.map ((fun r => r.isPB) ∘ fun r => ({ r with isPB := false } : RunRow)) =
      List.replicate l.length false := by
  induction l with
  | nil => rfl
  | cons r l ih => simp [Function.comp, List.replicate_succ, ih]

/-- Auxiliary: no cleared row counts as flagged. -/
theorem count_cleared (l : List RunRow) :
    List.count true
      (l.map ((fun r => r.isPB) ∘ fun r => ({ r with isPB := false } : RunRow))) = 0 := by
  induction l with
  | nil => rfl
  | cons r l ih => simpa using ih

/-- Auxiliary: a promoted save leaves exactly one flagged row. -/
theorem countPB_dbAfterSavePB (now : Int) (rm : RunManager) (db : DB) :
    countPB (dbAfterSavePB now rm db) = 1 := by
  unfold countPB dbAfterSavePB newRunRow
  simp [List.count_append]
  exact count_cleared db.runs

/-- C4: PB promotion is evaluated only for completed saves; a completed save
with no loaded PB always promotes, a strictly smaller total always promotes
and demotes the prior PB, a greater-or-equal total (ties included) never
promotes, and after the transaction exactly one run row carries `is_pb`. -/
theorem C4_pb_promotion (now : Int) (rm : RunManager) (db : DB)
    (hlen : rm.splits.length ≤ rm.splitNames.length)
    (hids : ∀ r ∈ db.runs, r.id < db.nextRunId)
    (hsps : ∀ s ∈ db.splits, s.runId < db.nextRunId)
    (hsync : countPB db = if rm.pb.isSome then 1 else 0) :
    (∃ o, saveRun none now false rm db = some o ∧ o.ok = true ∧
       o.db.runs.map (fun r => r.isPB) = db.runs.map (fun r => r.isPB) ++ [false]) ∧
    (∃ o, saveRun none now true rm db = some o ∧ o.ok = true ∧
       countPB o.db = 1 ∧
       (rm.pb = none →
         o.db.runs.map (fun r => r.isPB) = db.runs.map (fun _ => false) ++ [true]) ∧
       (∀ pb, rm.pb = some pb → sumD rm.splits < pbSum pb →
         o.db.runs.map (fun r => r.isPB) = db.runs.map (fun _ => false) ++ [true]) ∧
       (∀ pb, rm.pb = some pb → pbSum pb ≤ sumD rm.splits →
         o.db.runs.map (fun r => r.isPB) = db.runs.map (fun r => r.isPB) ++ [false])) := by
  constructor
  · have hp : promotes false rm = false := by simp [promotes]
    refine ⟨_, saveRun_none_not_promoted now false rm db hp hlen, rfl, ?_⟩
    simp [dbAfterSave, newRunRow]
  · by_cases hp : promotes true rm = true
    · obtain ⟨pbX, heq, -, -⟩ := saveRun_none_promoted now rm db hp hlen hids hsps
      refine ⟨_, heq, rfl, ?_, ?_, ?_, ?_⟩
      · exact countPB_dbAfterSavePB now rm db
      · intro _
        simp [dbAfterSavePB, newRunRow, map_cleared_isPB_replicate]
      · intro pb _ _
        simp [dbAfterSavePB, newRunRow, map_cleared_isPB_replicate]
      · intro pb hpb hge
        simp only [promotes, hpb, Bool.true_and] at hp
        rw [decide_eq_true_eq] at hp
        omega
    · have hp2 : promotes true rm = false := by
        cases h : promotes true rm
        · rfl
        · exact absurd h hp
      obtain ⟨pb, hpb⟩ : ∃ pb, rm.pb = some pb := by
        cases h : rm.pb with
        | none => exact absurd (by simp [promotes, h]) hp
        | some pb => exact ⟨pb, rfl⟩
      refine ⟨_, saveRun_none_not_promoted now true rm db hp2 hlen, rfl, ?_, ?_, ?_, ?_⟩
      · rw [countPB_dbAfterSave, hsync, hpb]
        rfl
      · intro h
        rw [h] at hpb
        cases hpb
      · intro pb2 hpb2 hlt
        simp only [promotes, hpb2, Bool.true_and] at hp2
        rw [decide_eq_false_iff_not] at hp2
        omega
      · intro _ _ _
        simp [dbAfterSave, newRunRow]

/-- Witness for C4 at a concrete state: saving an abandoned run changes no
`is_pb` flag. -/
theorem C4_pb_promotion_witness :
    ∃ o, saveRun none 9 false rmDemo dbDemo = some o ∧ o.ok = true ∧
      o.db.runs.map (fun r => r.isPB) = dbDemo.runs.map (fun r => r.isPB) ++ [false] :=
  (C4_pb_promotion 9 rmDemo dbDemo (by decide) (by decide) (by decide) (by decide)).1

/-- C8: resetting while running saves exactly one new run row with
completed=false and flag false, increments the in-memory attempts counter,
leaves the completed-runs counter, every stored `is_pb` flag, the stored
completed counter and the loaded PB unchanged, and then clears all
in-progress state (mode Idle, split index 0, no recorded durations). -/
theorem C8_reset_while_running (now : Int) (rm : RunManager) (db : DB)
    (hrun : rm.isRunning = true)
    (hlen : rm.splits.length ≤ rm.splitNames.length)
    (hcfg : db.config.attempts = rm.attempts ∧ db.config.completed = rm.completedRuns) :
    ∃ rmF dbF, RunManager.ResetRun none now rm db = some (true, rmF, dbF) ∧
      (∃ row, dbF.runs = db.runs ++ [row] ∧ row.completed = false ∧ row.isPB = false) ∧
      dbF.runs.map (fun r => r.isPB) = db.runs.map (fun r => r.isPB) ++ [false] ∧
      rmF.attempts = rm.attempts + 1 ∧
      rmF.completedRuns = rm.completedRuns ∧
      dbF.config.completed = db.config.completed ∧
      rmF.pb = rm.pb ∧
      rmF.mode = Mode.idle ∧
      rmF.currentSplit = 0 ∧
      rmF.splits = [] := by
  have hp : promotes false rm = false := by simp [promotes]
  have hsave := saveRun_none_not_promoted now false rm db hp hlen
  have hres : RunManager.ResetRun none now rm db =
      some (true, { rmAfterSave false rm with isRunning := false, currentSplit := 0, splits := [], isCompleted := false }, dbAfterSave now false rm db) := by
    simp only [RunManager.ResetRun, hrun, if_true, hsave]
  refine ⟨_, _, hres, ?_, ?_, ?_, ?_, ?_, ?_, ?_, ?_, ?_⟩
  · exact ⟨newRunRow now false rm db, by simp [dbAfterSave], by simp [newRunRow],
      by simp [newRunRow]⟩
  · simp [dbAfterSave, newRunRow]
  · simp [rmAfterSave]
  · simp [rmAfterSave]
  · simp [dbAfterSave, savedConfig, hcfg.2]
  · simp [rmAfterSave]
  · simp [RunManager.mode]
  · rfl
  · rfl

/-- Witness for C8 at a concrete running state. -/
theorem C8_reset_while_running_witness :
    ∃ rmF dbF, RunManager.ResetRun none 11 rmMidRun dbDemo = some (true, rmF, dbF) ∧
      (∃ row, dbF.runs = dbDemo.runs ++ [row] ∧ row.completed = false ∧ row.isPB = false) ∧
      dbF.runs.map (fun r => r.isPB) = dbDemo.runs.map (fun r => r.isPB) ++ [false] ∧
      rmF.attempts = rmMidRun.attempts + 1 ∧
      rmF.completedRuns = rmMidRun.completedRuns ∧
      dbF.config.completed = dbDemo.config.completed ∧
      rmF.pb = rmMidRun.pb ∧
      rmF.mode = Mode.idle ∧
      rmF.currentSplit = 0 ∧
      rmF.splits = [] :=
  C8_reset_while_running 11 rmMidRun dbDemo (by decide) (by decide) ⟨by decide, by decide⟩

/-- Auxiliary: a split that is not the last advances the index, restarts the
split clock and reports a non-final successful split, without persistence. -/
theorem Split_mid (fa : Option SaveStep) (t : Int) (rm : RunManager) (db : DB)
    (hrun : rm.isRunning = true)
    (hlt : rm.currentSplit < (rm.splitNames.length : Int) - 1) :
    RunManager.Split fa t rm db =
      some (false, true, { rm with splits := rm.splits ++ [t - rm.splitStartTime], currentSplit := rm.currentSplit + 1, splitStartTime := t }, db) := by
  unfold RunManager.Split
  rw [if_neg (by push_neg; exact ⟨hrun, by omega⟩)]
  rw [if_neg (by omega)]

/-- Auxiliary: with no failure injected, enough split names and a well-formed
store, a save always succeeds, preserves the lifecycle fields of the manager
and appends exactly one run row carrying the given completed flag. -/
theorem saveRun_none_ok (now : Int) (c : Bool) (rm : RunManager) (db : DB)
    (hlen : rm.splits.length ≤ rm.splitNames.length)
    (hids : ∀ r ∈ db.runs, r.id < db.nextRunId)
    (hsps : ∀ s ∈ db.splits, s.runId < db.nextRunId) :
    ∃ o : SaveOutcome, saveRun none now c rm db = some o ∧ o.ok = true ∧
      o.rm.isRunning = rm.isRunning ∧ o.rm.isCompleted = rm.isCompleted ∧
      o.rm.currentSplit = rm.currentSplit ∧ o.rm.splits = rm.splits ∧
      o.rm.splitNames = rm.splitNames ∧
      o.db.runs.length = db.runs.length + 1 ∧
      o.db.runs.getLast?.map (fun r => r.completed) = some c := by
  by_cases hp : promotes c rm = true
  · have hc : c = true := by
      cases c
      · simp [promotes] at hp
      · rfl
    subst hc
    obtain ⟨pbX, heq, -, -⟩ := saveRun_none_promoted now rm db hp hlen hids hsps
    refine ⟨_, heq, rfl, by simp [rmAfterSave], by simp [rmAfterSave],
      by simp [rmAfterSave], by simp [rmAfterSave], by simp [rmAfterSave], ?_, ?_⟩
    · simp [dbAfterSavePB]
    · simp [dbAfterSavePB, newRunRow]
  · have hp2 : promotes c rm = false := by
      cases h : promotes c rm
      · rfl
      · exact absurd h hp
    refine ⟨_, saveRun_none_not_promoted now c rm db hp2 hlen, rfl,
      by simp [rmAfterSave], by simp [rmAfterSave], by simp [rmAfterSave],
      by simp [rmAfterSave], by simp [rmAfterSave], ?_, ?_⟩
    · simp [dbAfterSave]
    · simp [dbAfterSave, newRunRow]

/-- Auxiliary: running the remaining splits from a consistent mid-run state
performs the remaining non-final splits successfully, finishes with the final
split, and appends one completed run row. -/
theorem splitSteps_run (ts : List Int) :
    ∀ (rm : RunManager) (db : DB),
      rm.isRunning = true →
      rm.currentSplit = (rm.splits.length : Int) →
      rm.splits.length + ts.length = rm.splitNames.length →
      ts ≠ [] →
      (∀ r ∈ db.runs, r.id < db.nextRunId) →
      (∀ s ∈ db.splits, s.runId < db.nextRunId) →
      ∃ rmF dbF,
        splitSteps none ts rm db =
          some (List.replicate (ts.length - 1) (false, true) ++ [(true, true)], rmF, dbF) ∧
        rmF.isRunning = false ∧ rmF.isCompleted = true ∧
        dbF.runs.length = db.runs.length + 1 ∧
        dbF.runs.getLast?.map (fun r => r.completed) = some true := by
  induction ts with
  | nil => intro rm db _ _ _ hne _ _; exact absurd rfl hne
  | cons t ts ih =>
    intro rm db hrun hcs hlen hne hids hsps
    by_cases hts : ts = []
    · subst hts
      have hN : rm.splits.length + 1 = rm.splitNames.length := by simpa using hlen
      have hfin : rm.currentSplit = (rm.splitNames.length : Int) - 1 := by omega
      obtain ⟨o, ho, hok, hrun2, hcomp2, -, -, -, hlen2, hlast2⟩ :=
        saveRun_none_ok t true { rm with splits := rm.splits ++ [t - rm.splitStartTime], isRunning := false, isCompleted := true } db
          (by simp only [List.length_append, List.length_cons, List.length_nil]; omega)
          hids hsps
      have hsplit : RunManager.Split none t rm db = some (true, true, o.rm, o.db) := by
        unfold RunManager.Split
        rw [if_neg (by push_neg; exact ⟨hrun, by omega⟩)]
        rw [if_pos hfin]
        dsimp only
        rw [ho]
        simp [hok]
      refine ⟨o.rm, o.db, ?_, by simp [hrun2], by simp [hcomp2], hlen2, hlast2⟩
      simp [splitSteps, hsplit]
    · have hlt1 : 1 ≤ ts.length := by
        cases ts
        · exact absurd rfl hts
        · simp
      have hlt : rm.currentSplit < (rm.splitNames.length : Int) - 1 := by
        simp only [List.length_cons] at hlen
        omega
      have hmid := Split_mid none t rm db hrun hlt
      obtain ⟨rmF, dbF, hsteps, h1, h2, h3, h4⟩ :=
        ih { rm with splits := rm.splits ++ [t - rm.splitStartTime], currentSplit := rm.currentSplit + 1, splitStartTime := t } db
          (by simp [hrun]) (by simp [hcs])
          (by simp only [List.length_append, List.length_cons, List.length_nil] at hlen ⊢; omega)
          hts hids hsps
      refine ⟨rmF, dbF, ?_, h1, h2, h3, h4⟩
      simp only [splitSteps, hmid, hsteps]
      have hrep : (t :: ts).length - 1 = (ts.length - 1) + 1 := by
        simp only [List.length_cons]
        omega
      rw [hrep, List.replicate_succ]
      simp

/-- Auxiliary: iterated splits decompose over an append of time lists. -/
theorem splitSteps_append (fa : Option SaveStep) (ts1 : List Int) :
    ∀ (ts2 : List Int) (rm : RunManager) (db : DB),
      splitSteps fa (ts1 ++ ts2) rm db =
        (match splitSteps fa ts1 rm db with
         | none => none
         | some (rs, rm2, db2) =>
           match splitSteps fa ts2 rm2 db2 with
           | none => none
           | some (rs2, rm3, db3) => some (rs ++ rs2, rm3, db3)) := by
  induction ts1 with
  | nil =>
    intro ts2 rm db
    show splitSteps fa ts2 rm db =
      (match splitSteps fa ts2 rm db with
       | none => none
       | some (rs2, rm3, db3) => some ([] ++ rs2, rm3, db3))
    cases h : splitSteps fa ts2 rm db with
    | none => rfl
    | some v =>
      obtain ⟨rs2, rm3, db3⟩ := v
      rfl
  | cons t ts1 ih =>
    intro ts2 rm db
    show (match RunManager.Split fa t rm db with
          | none => none
          | some (last, ok, rm2, db2) =>
            match splitSteps fa (ts1 ++ ts2) rm2 db2 with
            | none => none
            | some (rs, rmF, dbF) => some ((last, ok) :: rs, rmF, dbF)) =
         (match (match RunManager.Split fa t rm db with
                 | none => none
                 | some (last, ok, rm2, db2) =>
                   match splitSteps fa ts1 rm2 db2 with
                   | none => none
                   | some (rs, rmF, dbF) => some ((last, ok) :: rs, rmF, dbF)) with
          | none => none
          | some (rs, rm2, db2) =>
            match splitSteps fa ts2 rm2 db2 with
            | none => none
            | some (rs2, rm3, db3) => some (rs ++ rs2, rm3, db3))
    cases h : RunManager.Split fa t rm db with
    | none => rfl
    | some v =>
      obtain ⟨last, ok, rm2, db2⟩ := v
      dsimp only
      rw [ih ts2 rm2 db2]
      cases h1 : splitSteps fa ts1 rm2 db2 with
      | none => rfl
      | some w =>
        obtain ⟨rs, rmB, dbB⟩ := w
        dsimp only
        cases h2 : splitSteps fa ts2 rmB dbB with
        | none => rfl
        | some u =>
          obtain ⟨rs2, rmC, dbC⟩ := u
          rfl

/-- Auxiliary: the first `k` of the remaining splits, `k` strictly below the
number still to do, all succeed as non-final splits; the state stays running
with the index advanced by `k` and the split clock at the `k`-th time. -/
theorem splitSteps_prefix (k : Nat) :
    ∀ (ts : List Int) (rm : RunManager) (db : DB),
      rm.isRunning = true →
      rm.currentSplit = (rm.splits.length : Int) →
      rm.splits.length + ts.length = rm.splitNames.length →
      k < ts.length →
      ∃ rmM,
        splitSteps none (ts.take k) rm db = some (List.replicate k (false, true), rmM, db) ∧
        rmM.isRunning = true ∧
        rmM.currentSplit = rm.currentSplit + (k : Int) ∧
        rmM.splits.length = rm.splits.length + k ∧
        rmM.splitNames = rm.splitNames ∧
        (1 ≤ k → rmM.splitStartTime = ts.getD (k - 1) 0) := by
  induction k with
  | zero =>
    intro ts rm db hrun hcs hlen hk
    exact ⟨rm, by simp [splitSteps], hrun, by simp, by simp, rfl, by omega⟩
  | succ k ih =>
    intro ts rm db hrun hcs hlen hk
    obtain ⟨rmM, hsteps, h1, h2, h3, h5, h4⟩ := ih ts rm db hrun hcs hlen (by omega)
    obtain ⟨v, hv⟩ : ∃ v, ts[k]? = some v := by
      rw [List.getElem?_eq_getElem (by omega)]
      exact ⟨_, rfl⟩
    have htake : ts.take (k + 1) = ts.take k ++ [v] := by
      rw [List.take_succ, hv]
      rfl
    have hlt : rmM.currentSplit < (rmM.splitNames.length : Int) - 1 := by
      rw [h5, h2, hcs]
      push_cast
      omega
    have hmid := Split_mid none v rmM db h1 hlt
    have hone : splitSteps none [v] rmM db =
        some ([(false, true)], { rmM with splits := rmM.splits ++ [v - rmM.splitStartTime], currentSplit := rmM.currentSplit + 1, splitStartTime := v }, db) := by
      simp [splitSteps, hmid]
    rw [htake, splitSteps_append none (ts.take k) [v] rm db, hsteps]
    dsimp only
    rw [hone]
    refine ⟨{ rmM with splits := rmM.splits ++ [v - rmM.splitStartTime], currentSplit := rmM.currentSplit + 1, splitStartTime := v }, ?_, h1, ?_, ?_, h5, ?_⟩
    · dsimp only
      rw [List.replicate_succ']
    · show rmM.currentSplit + 1 = rm.currentSplit + ((k + 1 : Nat) : Int)
      rw [h2]
      push_cast
      ring
    · show (rmM.splits ++ [v - rmM.splitStartTime]).length = rm.splits.length + (k + 1)
      simp only [List.length_append, List.length_cons, List.length_nil, h3]
      omega
    · intro _
      show v = ts.getD (k + 1 - 1) 0
      have hk1 : k + 1 - 1 = k := by omega
      rw [hk1, List.getD_eq_getElem?_getD, hv]
      rfl

/-- C6: for every configuration with N ≥ 1 split names, StartRun then Split
N times moves the mode Idle→Running; each of the first N−1 splits returns
non-final and keeps the mode Running with the split index advanced to j and
the split clock reset to that split's time; the N-th split alone returns
final, sets the mode Completed, and persists the attempt as one new run row
with completed=true. -/
theorem C6_start_then_split_n (rm : RunManager) (db : DB) (t0 : Int) (ts : List Int)
    (hmode : rm.mode = Mode.idle)
    (hN : 1 ≤ rm.splitNames.length)
    (hts : ts.length = rm.splitNames.length)
    (hids : ∀ r ∈ db.runs, r.id < db.nextRunId)
    (hsps : ∀ s ∈ db.splits, s.runId < db.nextRunId) :
    (RunManager.StartRun t0 rm).mode = Mode.running ∧
    (∀ j : Nat, 1 ≤ j → j < ts.length →
      ∃ rmM, splitSteps none (ts.take j) (RunManager.StartRun t0 rm) db =
          some (List.replicate j (false, true), rmM, db) ∧
        rmM.mode = Mode.running ∧ rmM.currentSplit = (j : Int) ∧
        rmM.splitStartTime = ts.getD (j - 1) 0) ∧
    (∃ rmF dbF, splitSteps none ts (RunManager.StartRun t0 rm) db =
        some (List.replicate (ts.length - 1) (false, true) ++ [(true, true)], rmF, dbF) ∧
      rmF.mode = Mode.completed ∧
      dbF.runs.length = db.runs.length + 1 ∧
      dbF.runs.getLast?.map (fun r => r.completed) = some true) := by
  have hrun0 : (RunManager.StartRun t0 rm).isRunning = true := rfl
  have hcs0 : (RunManager.StartRun t0 rm).currentSplit =
      (((RunManager.StartRun t0 rm).splits).length : Int) := by
    simp [RunManager.StartRun]
  have hlen0 : (RunManager.StartRun t0 rm).splits.length + ts.length =
      (RunManager.StartRun t0 rm).splitNames.length := by
    simp [RunManager.StartRun, hts]
  refine ⟨by simp [RunManager.mode, RunManager.StartRun], ?_, ?_⟩
  · intro j hj1 hj2
    obtain ⟨rmM, hsteps, h1, h2, h3, h5, h4⟩ :=
      splitSteps_prefix j ts _ db hrun0 hcs0 hlen0 hj2
    refine ⟨rmM, hsteps, ?_, ?_, h4 hj1⟩
    · simp [RunManager.mode, h1]
    · rw [h2]
      simp [RunManager.StartRun]
  · have hne : ts ≠ [] := by
      intro h
      rw [h] at hts
      simp at hts
      omega
    obtain ⟨rmF, dbF, hsteps, h1, h2, h3, h4⟩ :=
      splitSteps_run ts _ db hrun0 hcs0 hlen0 hne hids hsps
    refine ⟨rmF, dbF, hsteps, ?_, h3, h4⟩
    simp [RunManager.mode, h1, h2]

/-- Witness for C6 on two splits timed 3 and 7. -/
theorem C6_start_then_split_n_witness :
    (RunManager.StartRun 0 rmIdle).mode = Mode.running ∧
    (∀ j : Nat, 1 ≤ j → j < ([3, 7] : List Int).length →
      ∃ rmM, splitSteps none (([3, 7] : List Int).take j) (RunManager.StartRun 0 rmIdle) dbEmpty =
          some (List.replicate j (false, true), rmM, dbEmpty) ∧
        rmM.mode = Mode.running ∧ rmM.currentSplit = (j : Int) ∧
        rmM.splitStartTime = ([3, 7] : List Int).getD (j - 1) 0) ∧
    (∃ rmF dbF, splitSteps none [3, 7] (RunManager.StartRun 0 rmIdle) dbEmpty =
        some (List.replicate (([3, 7] : List Int).length - 1) (false, true) ++ [(true, true)], rmF, dbF) ∧
      rmF.mode = Mode.completed ∧
      dbF.runs.length = dbEmpty.runs.length + 1 ∧
      dbF.runs.getLast?.map (fun r => r.completed) = some true) :=
  C6_start_then_split_n rmIdle dbEmpty 0 [3, 7] (by decide) (by decide) (by decide)
    (by decide) (by decide)

/-- Auxiliary: the post-commit tail never touches the lifecycle fields. -/
theorem saveRunFinish_fields (b : Bool) (rm1 : RunManager) (db4 : DB) (o : SaveOutcome)
    (h : saveRunFinish b rm1 db4 = some o) :
    o.rm.isRunning = rm1.isRunning ∧ o.rm.currentSplit = rm1.currentSplit ∧
    o.rm.splits = rm1.splits ∧ o.rm.splitNames = rm1.splitNames ∧
    o.rm.isCompleted = rm1.isCompleted := by
  unfold saveRunFinish at h
  split at h
  · dsimp only at h
    split at h
    · cases h
    · rename_i rm3 hcbs
      cases h
      obtain ⟨p, hp⟩ := ComputeBestSegments_shape _ _ _ hcbs
      subst hp
      exact ⟨rfl, rfl, rfl, rfl, rfl⟩
  · cases h; exact ⟨rfl, rfl, rfl, rfl, rfl⟩

/-- Auxiliary: whatever happens inside `saveRun` — success, injected failure
or promotion — the lifecycle fields of the manager are never touched. -/
theorem saveRun_fields (fa : Option SaveStep) (now : Int) (c : Bool)
    (rm : RunManager) (db : DB) (o : SaveOutcome)
    (h : saveRun fa now c rm db = some o) :
    o.rm.isRunning = rm.isRunning ∧ o.rm.currentSplit = rm.currentSplit ∧
    o.rm.splits = rm.splits ∧ o.rm.splitNames = rm.splitNames ∧
    o.rm.isCompleted = rm.isCompleted := by
  unfold saveRun at h
  dsimp only at h
  split at h
  · cases h; exact ⟨rfl, rfl, rfl, rfl, rfl⟩
  · split at h
    · cases h; exact ⟨rfl, rfl, rfl, rfl, rfl⟩
    · split at h
      · cases h; exact ⟨rfl, rfl, rfl, rfl, rfl⟩
      · split at h
        · cases h; exact ⟨rfl, rfl, rfl, rfl, rfl⟩
        · split at h
          · cases h; exact ⟨rfl, rfl, rfl, rfl, rfl⟩
          · split at h
            · cases h
            · cases h; exact ⟨rfl, rfl, rfl, rfl, rfl⟩
            · split at h
              · cases h; exact ⟨rfl, rfl, rfl, rfl, rfl⟩
              · obtain ⟨f1, f2, f3, f4, f5⟩ := saveRunFinish_fields _ _ _ _ h
                exact ⟨f1, f2, f3, f4, f5⟩

/-- C10: in every state reachable by any sequence of StartRun, Split,
UndoSplit and ResetRun calls (with arbitrary times and injected persistence
failures), whenever the manager is running the current split index equals the
number of recorded durations and lies within [0, N]; and the number of
recorded durations never exceeds N. -/
theorem C10_running_invariant (rm : RunManager) (db : DB) (h : Reachable rm db) :
    (rm.isRunning = true →
      rm.currentSplit = (rm.splits.length : Int) ∧
      0 ≤ rm.currentSplit ∧ rm.currentSplit ≤ (rm.splitNames.length : Int)) ∧
    rm.splits.length ≤ rm.splitNames.length := by
  induction h with
  | init rm db h0 =>
    obtain ⟨h1, h2, h3, h4⟩ := h0
    refine ⟨?_, ?_⟩
    · intro hr
      rw [h1] at hr
      cases hr
    · rw [h3]
      simp
  | start rm db t hre ih =>
    refine ⟨?_, ?_⟩
    · intro _
      refine ⟨rfl, le_refl 0, ?_⟩
      show (0 : Int) ≤ (rm.splitNames.length : Int)
      omega
    · show ([] : List Int).length ≤ rm.splitNames.length
      simp
  | split rm db fa t last ok rm2 db2 hre heq ih =>
    unfold RunManager.Split at heq
    split at heq
    · cases heq
      exact ih
    · rename_i hguard
      push_neg at hguard
      obtain ⟨hrun, hlt⟩ := hguard
      have hihr := ih.1 hrun
      dsimp only at heq
      split at heq
      · split at heq
        · cases heq
        · rename_i o hsave
          cases heq
          obtain ⟨f1, f2, f3, f4, f5⟩ := saveRun_fields _ _ _ _ _ _ hsave
          refine ⟨?_, ?_⟩
          · intro hr
            rw [f1] at hr
            simp at hr
          · rw [f3, f4]
            show (rm.splits ++ [t - rm.splitStartTime]).length ≤ rm.splitNames.length
            simp only [List.length_append, List.length_cons, List.length_nil]
            have h1 := hihr.1
            omega
      · cases heq
        refine ⟨?_, ?_⟩
        · intro _
          refine ⟨?_, ?_, ?_⟩
          · show rm.currentSplit + 1 = ((rm.splits ++ [t - rm.splitStartTime]).length : Int)
            simp only [List.length_append, List.length_cons, List.length_nil]
            have h1 := hihr.1
            omega
          · show (0 : Int) ≤ rm.currentSplit + 1
            have h2 := hihr.2.1
            omega
          · show rm.currentSplit + 1 ≤ (rm.splitNames.length : Int)
            omega
        · show (rm.splits ++ [t - rm.splitStartTime]).length ≤ rm.splitNames.length
          simp only [List.length_append, List.length_cons, List.length_nil]
          have h1 := hihr.1
          omega
  | undo rm db t ok2 rm2 hre heq ih =>
    unfold RunManager.UndoSplit at heq
    split at heq
    · cases heq
      exact ih
    · rename_i hguard
      push_neg at hguard
      obtain ⟨hrun, hne⟩ := hguard
      cases heq
      have hihr := ih.1 hrun
      have hpos : 0 < rm.splits.length := List.length_pos.mpr hne
      refine ⟨?_, ?_⟩
      · intro _
        have h1 := hihr.1
        refine ⟨?_, ?_, ?_⟩
        · show rm.currentSplit - 1 = ((rm.splits.dropLast).length : Int)
          rw [List.length_dropLast]
          omega
        · show (0 : Int) ≤ rm.currentSplit - 1
          omega
        · show rm.currentSplit - 1 ≤ (rm.splitNames.length : Int)
          have h3 := hihr.2.2
          omega
      · show (rm.splits.dropLast).length ≤ rm.splitNames.length
        rw [List.length_dropLast]
        have h2 := ih.2
        omega
  | reset rm db fa t ok2 rm2 db2 hre heq ih =>
    unfold RunManager.ResetRun at heq
    split at heq
    · cases heq
    · rename_i o hsome
      split at heq
      · cases heq
        refine ⟨?_, ?_⟩
        · intro hr
          simp at hr
        · show ([] : List Int).length ≤ o.rm.splitNames.length
          simp
      · rename_i hok
        cases heq
        split at hsome
        · obtain ⟨f1, f2, f3, f4, f5⟩ := saveRun_fields _ _ _ _ _ _ hsome
          refine ⟨?_, ?_⟩
          · intro hr
            rw [f1] at hr
            obtain ⟨g1, g2, g3⟩ := ih.1 hr
            refine ⟨?_, ?_, ?_⟩
            · rw [f2, f3]
              exact g1
            · rw [f2]
              exact g2
            · rw [f2, f4]
              exact g3
          · rw [f3, f4]
            exact ih.2
        · cases hsome
          exact absurd rfl hok

/-- Witness for C10 at a state reached by starting and splitting once on a
two-split configuration. -/
theorem C10_running_invariant_witness :
    ((RunManager.StartRun 0 rmIdle).isRunning = true →
      (RunManager.StartRun 0 rmIdle).currentSplit =
        ((RunManager.StartRun 0 rmIdle).splits.length : Int) ∧
      0 ≤ (RunManager.StartRun 0 rmIdle).currentSplit ∧
      (RunManager.StartRun 0 rmIdle).currentSplit ≤
        ((RunManager.StartRun 0 rmIdle).splitNames.length : Int)) ∧
    (RunManager.StartRun 0 rmIdle).splits.length ≤
      (RunManager.StartRun 0 rmIdle).splitNames.length :=
  C10_running_invariant (RunManager.StartRun 0 rmIdle) dbEmpty
    (Reachable.start rmIdle dbEmpty 0 (Reachable.init rmIdle dbEmpty ⟨rfl, rfl, rfl, rfl⟩))

end Speedrun
